import Mathlib

/-
Verification development for the leave-reconcile pipeline (src/docs/app.js).

Modelling conventions for the shallow embedding:
  * JavaScript numbers are modelled as exact rationals (ℚ).  All of the
    arithmetic exercised by the claims (sums of hour values, the two-decimal
    floor/round used by the prefill engine) is exact decimal arithmetic.
  * Calendar dates are modelled as integer day numbers (days since
    0000-03-01 in the proleptic Gregorian calendar).  `daysFromCivil` and
    `civilFromDays` are the standard civil-calendar conversions; `jsDate`
    reproduces the month/day normalisation performed by the JavaScript
    `Date(year, monthIndex, day)` constructor (month rollover, arbitrary day
    offsets).  The runtime is assumed to be in the UTC timezone, so local
    calendar-day extraction agrees with UTC day numbers.
  * Fallible JavaScript results (null returns, thrown errors) are modelled
    with Option / Except.
-/

/- Day count of a civil date (y, m, d), days since 0000-03-01, using floor
division so that the formula is valid for all integers. -/

def daysFromCivil (y m d : Int) : Int :=
  let y2 := if m ≤ 2 then y - 1 else y
  let m2 := if m ≤ 2 then m + 12 else m
  365 * y2 + y2.fdiv 4 - y2.fdiv 100 + y2.fdiv 400 + (153 * (m2 - 3) + 2).fdiv 5 + d - 1

/- Inverse of `daysFromCivil` (standard civil-from-days algorithm). -/
def civilFromDays (z : Int) : Int × Int × Int :=
  let era := z.fdiv 146097
  let doe := z - era * 146097
  let yoe := (doe - doe.fdiv 1460 + doe.fdiv 36524 - doe.fdiv 146096).fdiv 365
  let y := yoe + era * 400
  let doy := doe - (365 * yoe + yoe.fdiv 4 - yoe.fdiv 100)
  let mp := (5 * doy + 2).fdiv 153
  let d := doy - (153 * mp + 2).fdiv 5 + 1
  let m := if mp < 10 then mp + 3 else mp - 9
  (if m ≤ 2 then y + 1 else y, m, d)

/- `new Date(Date.UTC(y, monthIndex, day))` / `new Date(y, monthIndex, day)`
normalisation: months outside 0..11 and days outside the month roll over. -/
def jsDate (y monthIndex day : Int) : Int :=
  let ym := y * 12 + monthIndex
  daysFromCivil (ym.fdiv 12) (ym.fmod 12 + 1) day

/- The `Date(y, m, d)` constructor maps two-digit years to 1900 + y. -/
def jsDateCtor (y monthIndex day : Int) : Int :=
  jsDate (if 0 ≤ y ∧ y ≤ 99 then y + 1900 else y) monthIndex day

/- JavaScript `getDay()`: 0 = Sunday .. 6 = Saturday. -/
def dayOfWeek (d : Int) : Int := (d + 3) % 7

/- app.js isBusinessDay: the fixed 2025 Canadian federal holiday table. -/
def holidays2025 : List Int :=
  [jsDate 2025 0 1, jsDate 2025 3 18, jsDate 2025 4 19, jsDate 2025 6 1,
   jsDate 2025 7 4, jsDate 2025 8 1, jsDate 2025 8 30, jsDate 2025 9 13,
   jsDate 2025 10 11, jsDate 2025 11 25, jsDate 2025 11 26]

/- app.js isBusinessDay(dateObj): not a listed holiday and Monday..Friday. -/
def isBusinessDay (d : Int) : Bool :=
  !(holidays2025.contains d) && (1 ≤ dayOfWeek d && dayOfWeek d ≤ 5)

/- The inner `while (!isBusinessDay(currentDate)) currentDate += 1 day` loop
of expandOracleEntries, as a fuelled scan.  Seven days of fuel always
suffice: `nextBusinessDay_isBusinessDay` below proves that every window of
seven consecutive days contains a business day, so the fuelled scan computes
exactly what the unbounded source loop computes. -/
def nextBusinessDayFrom : Nat → Int → Int
  | 0, d => d
  | fuel + 1, d => if isBusinessDay d then d else nextBusinessDayFrom fuel (d + 1)

def nextBusinessDay (d : Int) : Int := nextBusinessDayFrom 7 d

/- One expanded Oracle record (fields 'Date', 'Oracle Hours',
'Oracle Leave Code' of the objects pushed by expandOracleEntries). -/
structure OEntry where
  date : Int
  hours : ℚ
  code : String
  deriving Repr, DecidableEq

/- Pre-expansion Oracle record ('Date', 'Oracle Hours', 'Oracle Leave Code'). -/
structure ORec where
  date : Int
  hours : ℚ
  code : String
  deriving Repr, DecidableEq

/- Math.min, written out with its defining conditional so that the kernel can
evaluate it on concrete rationals (`jsMin_eq_min` identifies it with `min`). -/
def jsMin (a b : ℚ) : ℚ := if a ≤ b then a else b

/- The outer `while (remaining > 0)` loop of expandOracleEntries.  Each
iteration emits min(8, remaining) hours on the next business day and
advances one calendar day past it.  The loop is fuelled; `expandFuel`
below always provides enough fuel (claim C9 proves stabilisation). -/
def expandLoop (code : String) : Nat → ℚ → Int → List OEntry
  | 0, _, _ => []
  | fuel + 1, remaining, cur =>
    if 0 < remaining then
      let bd := nextBusinessDay cur
      let h := jsMin 8 remaining
      ⟨bd, h, code⟩ :: expandLoop code fuel (remaining - h) (bd + 1)
    else []

def expandFuel (h : ℚ) : Nat := h.num.toNat + 1

/- expandOracleEntries, per record: hours ≤ 8 is passed through unchanged,
otherwise the multi-day loop runs starting at the record's own date. -/
def expandRecord (r : ORec) : List OEntry :=
  if r.hours ≤ 8 then [⟨r.date, r.hours, r.code⟩]
  else expandLoop r.code (expandFuel r.hours) r.hours r.date

def expandOracleEntries (rows : List ORec) : List OEntry :=
  (rows.map expandRecord).flatten

/- ------------------- business-calendar lemmas ------------------- -/

/- The holidays that fall on a Tuesday or a Wednesday.  Any two of them are
at least a week apart, which is what makes the 7-day scan always succeed. -/
def midweekHolidays : List Int :=
  holidays2025.filter (fun h => dayOfWeek h = 2 ∨ dayOfWeek h = 3)

/- A scalar spreadsheet cell value as delivered to the pipeline: null/undefined,
a number, a string, or a native date (day number plus time of day). -/
inductive CellValue where
  | empty
  | num (q : ℚ)
  | str (s : String)
  | dateV (day : Int) (msOfDay : Nat)
  deriving Repr, DecidableEq

/- JavaScript String(v) for non-null cell values.  Integers render as their
decimal digits exactly as in JS.  Non-integer numbers render as "num/den"
(JS uses decimal notation); both renderings are non-empty and contain no
alphabetic characters, which is all later predicates inspect.  Native dates
are rendered as their day number (JS renders a verbose date string; again the
predicates below only use non-emptiness and keyword-freeness). -/
def jsCellStr : CellValue → String
  | .empty => ""
  | .num q => if q.den = 1 then toString q.num else toString q.num ++ "/" ++ toString q.den
  | .str s => s
  | .dateV d _ => toString d

/- List-of-chars matching: does the second list start with the first? -/
def leadsWith : List Char → List Char → Bool
  | [], _ => true
  | _ :: _, [] => false
  | a :: as, b :: bs => a == b && leadsWith as bs

/- JavaScript String.prototype.includes. -/
def hasSub (s pat : String) : Bool :=
  go pat.data s.data
where
  go (pat : List Char) : List Char → Bool
    | [] => leadsWith pat []
    | l@(_ :: t) => leadsWith pat l || go pat t

/- JavaScript String.prototype.trim, on the character list (kernel-computable,
unlike String.trim; trims the usual ASCII whitespace). -/
def jsTrim (s : String) : String :=
  ⟨((s.data.dropWhile Char.isWhitespace).reverse.dropWhile Char.isWhitespace).reverse⟩

/- toLowerCase, on the character list. -/
def lowerStr (s : String) : String := ⟨s.data.map Char.toLower⟩

/- split on a single-character separator (kernel-computable String.splitOn). -/
def splitAux (sep : Char) : List Char → List Char → List String
  | [], cur => [⟨cur.reverse⟩]
  | c :: rest, cur =>
    if c = sep then ⟨cur.reverse⟩ :: splitAux sep rest []
    else splitAux sep rest (c :: cur)

def splitOnC (s : String) (sep : Char) : List String := splitAux sep s.data []

/- JavaScript String.prototype.startsWith, on the character list. -/
def startsWithStr (s pat : String) : Bool := leadsWith pat.data s.data

/- Strip every non-digit character (the s.replace(/\D+/g,'') idiom). -/
def stripNonDigits (s : String) : String := ⟨s.data.filter Char.isDigit⟩

def digitsVal (s : String) : Option Nat :=
  if s.length ≥ 1 ∧ s.data.all Char.isDigit then
    some (s.data.foldl (fun n c => n * 10 + (c.toNat - 48)) 0)
  else none

/- ------------------- leave-code normalisation ------------------- -/

/- DRMIS/Oracle raw code normalisation on the stringified cell:
empty/whitespace/dash → "0", otherwise strip non-digits, falling back to the
trimmed original when no digit remains. -/
def rawNormalize (s0 : String) : String :=
  if jsTrim s0 = "" ∨ jsTrim s0 = "-" then "0"
  else
    let s := jsTrim s0
    let digits := stripNonDigits s
    if digits = "" then s else digits

/- DRMIS normalizeLeaveCodeRaw (null/undefined handled before String()). -/
def normalizeLeaveCodeRaw (v : CellValue) : String :=
  match v with
  | .empty => "0"
  | v' => rawNormalize (jsCellStr v')

/- Oracle normalizeLeaveCodeRawOracle is the same raw normalisation. -/
def normalizeLeaveCodeRawOracle (v : CellValue) : String := normalizeLeaveCodeRaw v

/- The length-based 3-digit → 4-digit remap of extractOracleData. -/
def oracleRemap (norm : String) : String :=
  if norm = "0" then "0"
  else if norm.length = 3 then "1" ++ norm
  else if norm.length = 4 then norm
  else norm

/- The Oracle code bridge of extractOracleData. -/
def normalizeOracleCode (v : CellValue) : String :=
  oracleRemap (normalizeLeaveCodeRawOracle v)

/- The normalisation exactly as claim C5 words it: strip the non-digits and
remap purely by the length of the digit string (no fallback to the original
string when no digits remain). -/
def claimedNormalizeOracleCode (v : CellValue) : String :=
  match v with
  | .empty => "0"
  | v' =>
    let s := jsTrim (jsCellStr v')
    if s = "" ∨ s = "-" then "0"
    else
      let digits := stripNonDigits s
      if digits = "0" then "0"
      else if digits.length = 3 then "1" ++ digits
      else if digits.length = 4 then digits
      else digits

/- The amended form of claim C5, as a string-level function: when stripping
leaves no digits the trimmed original string is kept, and the length remap is
applied to that kept string as well. -/
def amendedStr (s0 : String) : String :=
  let s := jsTrim s0
  if s = "" ∨ s = "-" then "0"
  else
    let digits := stripNonDigits s
    let base := if digits = "" then s else digits
    if base = "0" then "0"
    else if base.length = 3 then "1" ++ base
    else if base.length = 4 then base
    else base

def amendedNormalizeOracleCode (v : CellValue) : String :=
  match v with
  | .empty => "0"
  | v' => amendedStr (jsCellStr v')

/- ------------------- date normalisation ------------------- -/

/- A date-pattern group: between lo and hi digits, as matched by the anchored
regexes of normalizeDate. -/
def groupNum (s : String) (lo hi : Nat) : Option Nat :=
  if lo ≤ s.length ∧ s.length ≤ hi then digitsVal s else none

/- D.M.YYYY and D-M-YYYY (day first). -/
def dayFirstPattern (t : String) (sep : Char) : Option Int :=
  match splitOnC t sep with
  | [a, b, c] =>
    match groupNum a 1 2, groupNum b 1 2, groupNum c 4 4 with
    | some day, some mon, some y => some (jsDateCtor y ((mon : Int) - 1) day)
    | _, _, _ => none
  | _ => none

/- M/D/YYYY (month first). -/
def monthFirstPattern (t : String) : Option Int :=
  match splitOnC t '/' with
  | [a, b, c] =>
    match groupNum a 1 2, groupNum b 1 2, groupNum c 4 4 with
    | some mon, some day, some y => some (jsDateCtor y ((mon : Int) - 1) day)
    | _, _, _ => none
  | _ => none

/- YYYY-M-D (ISO). -/
def isoPattern (t : String) : Option Int :=
  match splitOnC t '-' with
  | [a, b, c] =>
    match groupNum a 4 4, groupNum b 1 2, groupNum c 1 2 with
    | some y, some mon, some day => some (jsDateCtor y ((mon : Int) - 1) day)
    | _, _, _ => none
  | _ => none

def msPerDay : ℚ := 86400000

/- app.js normalizeDate.  `fb` stands for the external Date.parse fallback
(already truncated to a calendar day; none for NaN).  Numeric values go
through the epoch-milliseconds computation of the source and come out as
whole days via the calendar-day truncation. -/
def normalizeDate (fb : String → Option Int) (v : CellValue) : Option Int :=
  match v with
  | .empty => none
  | .dateV d _ => some d
  | .num q => some ⌊((jsDate 1899 11 30 : ℚ) * msPerDay + q * msPerDay) / msPerDay⌋
  | .str s =>
    if s = "" then none
    else
      let t := jsTrim s
      match dayFirstPattern t '.' with
      | some d => some d
      | none =>
        match dayFirstPattern t '-' with
        | some d => some d
        | none =>
          match monthFirstPattern t with
          | some d => some d
          | none =>
            match isoPattern t with
            | some d => some d
            | none => fb t

/- ------------------- two-decimal arithmetic and the prefill engine -------- -/

/- Math.floor(x*100)/100 -/
def floor2 (q : ℚ) : ℚ := (⌊q * 100⌋ : ℤ) / 100

/- Math.round(x*100)/100 (Math.round rounds half toward +∞, as does
Mathlib's `round`). -/
def round2 (q : ℚ) : ℚ := (round (q * 100) : ℤ) / 100

/- The "Oracle removed DRMIS leave" redistribution of prefillEditableRow
(lines 1477-1492): proportional two-decimal-floored shares, remainder to the
first candidate when positive; everything to the first candidate when the
available total is not positive. -/
def redistribute (rs : List ℚ) (toAdd : ℚ) : List ℚ :=
  let sumAvail := rs.sum
  if 0 < sumAvail then
    let upd := rs.map (fun h => h + floor2 (h / sumAvail * toAdd))
    let allocated := (rs.map (fun h => floor2 (h / sumAvail * toAdd))).sum
    let remainder := round2 (toAdd - allocated)
    if 0 < remainder then
      match upd with
      | [] => []
      | x :: t => (x + remainder) :: t
    else upd
  else
    match rs with
    | [] => []
    | x :: t => (x + toAdd) :: t

/- ------------------- two-decimal arithmetic lemmas ------------------- -/

/- A rational that is a whole number of cents (two decimal places). -/
def isCents (q : ℚ) : Prop := ∃ k : ℤ, q = k / 100

/- Canonical DRMIS record pushed by extractDrmisData ('Pers No', 'Date',
'Drmis Hours', 'Drmis Leave Code').  The raw Pers No cell is stored in its
stringified form (the empty string for null/undefined), which is the only
form later stages consume (String(pers || ''), trim tests, Number(pers)). -/
structure DRec where
  pers : String
  date : Int
  drmisHours : ℚ
  drmisCode : String
  deriving Repr, DecidableEq

/- A merged map entry / merged row of reconcileData.  The map key
date-ISO-string + '|' + pers is modelled by the (date, pers) pair: the ISO
rendering of the Date objects flowing through the pipeline is a fixed-width
ten-character string, so `startsWith(dateStr + '|')` agrees with equality on
the date component. -/
structure MRow where
  date : Int
  pers : String
  drmisHours : ℚ
  drmisCode : String
  oracleHours : ℚ
  oracleCode : String
  deriving Repr, DecidableEq

/- First non-empty Pers No among the DRMIS records (reconcileData). -/
def defaultPers (drmis : List DRec) : String :=
  match drmis.find? (fun r => !(jsTrim r.pers == "")) with
  | some r => r.pers
  | none => ""

/- Seeding the merged map from DRMIS records: first record per (date, pers)
key wins, later duplicates are ignored. -/
def seedDrmis (drmis : List DRec) : List MRow :=
  drmis.foldl (fun m r =>
    if (m.find? (fun row => row.date == r.date && row.pers == r.pers)).isSome then m
    else m ++ [⟨r.date, r.pers, r.drmisHours, r.drmisCode, 0, ""⟩]) []

/- Placing one Oracle record: the first map entry with the same date (any
pers) gets its Oracle hours/code overwritten in place; with no matching date
a fresh row with defaultPers and zero DRMIS side is appended. -/
def placeOne (dflt : String) : List MRow → ORec → List MRow
  | [], r => [⟨r.date, dflt, 0, "0", r.hours, r.code⟩]
  | row :: rest, r =>
    if row.date == r.date then
      { row with oracleHours := r.hours, oracleCode := r.code } :: rest
    else row :: placeOne dflt rest r

def placeOracle (dflt : String) (m : List MRow) (oracle : List ORec) : List MRow :=
  oracle.foldl (placeOne dflt) m

/- Leading-digits parseInt (radix-10 fragment of the JS function; the
pipeline's code strings never carry the 0x prefix). -/
def digitsToNat (l : List Char) : Nat :=
  l.foldl (fun n c => n * 10 + (c.toNat - 48)) 0

def leadingDigits (l : List Char) : Option Nat :=
  let ds := l.takeWhile Char.isDigit
  if ds = [] then none else some (digitsToNat ds)

def parseIntLeading (s : String) : Option Int :=
  match (jsTrim s).data with
  | '-' :: rest => (leadingDigits rest).map (fun n => -(n : Int))
  | '+' :: rest => (leadingDigits rest).map (fun n => (n : Int))
  | l => (leadingDigits l).map (fun n => (n : Int))

/- The decimal fragment of JS Number(string): optional sign, digits with an
optional fractional part; '' is 0; anything else in the pipeline's value
space is NaN (none). -/
def decimalVal (l : List Char) : Option ℚ :=
  let ip := l.takeWhile Char.isDigit
  let rest := l.dropWhile Char.isDigit
  match rest with
  | [] => if ip = [] then none else some ((digitsToNat ip : Int) : ℚ)
  | '.' :: frac =>
    if frac.all Char.isDigit ∧ (ip ≠ [] ∨ frac ≠ []) then
      some ((digitsToNat ip : ℚ) + (digitsToNat frac : ℚ) / (10 ^ frac.length : ℚ))
    else none
  | _ => none

def jsNumOfString (s : String) : Option ℚ :=
  match (jsTrim s).data with
  | [] => some 0
  | '-' :: rest => (decimalVal rest).map (fun q => -q)
  | '+' :: rest => decimalVal rest
  | l => decimalVal l

/- Number(v) || 0 on a raw cell. -/
def jsNumOr0 (c : CellValue) : ℚ :=
  match c with
  | .empty => 0
  | .num q => q
  | .str s => (jsNumOfString s).getD 0
  | .dateV d ms => ((d - jsDate 1970 0 1) * 86400000 + (ms : Int) : Int)

/- The merged-row 'Pers No' finalisation: empty falls back to defaultPers,
otherwise Number(pers) when that is a non-zero number, else the string. -/
def persNumStr (dflt : String) (pers : String) : String :=
  if pers = "" then dflt
  else match jsNumOfString pers with
    | some q => if q ≠ 0 then jsCellStr (.num q) else pers
    | none => pers

/- The merged-row DRMIS leave code canonicalisation (the `|| '0'` default
followed by the parseInt renumbering loop). -/
def canonDrmisCode (c : String) : String :=
  let c1 := if c = "" then "0" else c
  if jsTrim c1 = "" then "0"
  else match parseIntLeading c1 with
    | some n => toString n
    | none => c1

def finalizeRow (dflt : String) (m : MRow) : MRow :=
  { date := m.date
    pers := persNumStr dflt m.pers
    oracleCode := m.oracleCode
    oracleHours := m.oracleHours
    drmisCode := canonDrmisCode m.drmisCode
    drmisHours := m.drmisHours }

/- A merged row is a mismatch iff the codes differ as strings or the hours
differ numerically. -/
def isMismatch (r : MRow) : Bool :=
  !(r.drmisCode == r.oracleCode) || !(r.drmisHours == r.oracleHours)

/- The optional leave-code whitelist filter over merged rows. -/
def wlFilter (wl : Option (List String)) (rows : List MRow) : List MRow :=
  match wl with
  | none => rows
  | some codes =>
    if codes = [] then rows
    else rows.filter (fun r =>
      codes.contains (jsTrim r.drmisCode) || codes.contains (jsTrim r.oracleCode))

def mergedRows (wl : Option (List String)) (drmis : List DRec) (oracle : List ORec) :
    List MRow :=
  let dflt := defaultPers drmis
  wlFilter wl ((placeOracle dflt (seedDrmis drmis) oracle).map (finalizeRow dflt))

/- Stable ascending-by-date insertion sort (the JS Array.sort with the
numeric date comparator). -/
def insertByDate (x : MRow) : List MRow → List MRow
  | [] => [x]
  | y :: ys => if x.date < y.date then x :: y :: ys else y :: insertByDate x ys

def sortByDate (l : List MRow) : List MRow :=
  l.foldl (fun acc x => insertByDate x acc) []

/- reconcileData: mismatches among the merged rows, sorted ascending by date.
(The constant `Add to CATs Edits: true` flag added to every mismatch row is
omitted from the model.) -/
def reconcileData (wl : Option (List String)) (drmis : List DRec)
    (oracle : List ORec) : List MRow :=
  sortByDate ((mergedRows wl drmis oracle).filter isMismatch)

/- The DRMIS-side view of the first merged row carrying a given date
(defaults as used when a fresh row is created for an Oracle-only date). -/
def drmisView (dflt : String) (m : List MRow) (d : Int) : String × ℚ × String :=
  match m.find? (fun row => row.date == d) with
  | some row => (row.pers, row.drmisHours, row.drmisCode)
  | none => (dflt, 0, "0")

/- A JavaScript value as stored in a CATs edit field: a number, a string, or
NaN (from Number() on a non-numeric string). -/
inductive JsVal where
  | num (q : ℚ)
  | str (s : String)
  | nan
  deriving Repr, DecidableEq

/- Array.prototype.join(sep). -/
def joinSep (sep : String) : List String → String
  | [] => ""
  | [x] => x
  | x :: xs => x ++ sep ++ joinSep sep xs

def monthNames : List String :=
  ["Jan", "Feb", "Mar", "Apr", "May", "Jun",
   "Jul", "Aug", "Sep", "Oct", "Nov", "Dec"]

/- String(getDate()).padStart(2, '0') for day-of-month values. -/
def pad2 (n : Int) : String := if n < 10 then "0" ++ toString n else toString n

/- formattedDateForDisplay: "Mmm DD, YYYY". -/
def formattedDateForDisplay (d : Int) : String :=
  let c := civilFromDays d
  (monthNames.getD (c.2.1 - 1).toNat "") ++ " " ++ pad2 c.2.2 ++ ", " ++ toString c.1

structure CatsRow where
  pers_no : JsVal
  date : String
  work_order : String
  act : String
  aa_code : JsVal
  hours : JsVal
  discrepancy_reason : String
  row_type : String
  editable : Bool
  original_drmis_code : String
  original_drmis_hours : ℚ
  replaced : Bool
  deriving Repr, DecidableEq

/- parseInt-rendered code: a number when parseInt succeeds, the original
string otherwise (the isNaN fallback). -/
def codeVal (s : String) : JsVal :=
  match parseIntLeading s with
  | some n => .num (n : ℚ)
  | none => .str s

/- The data-row produced by generateCatsEdits for one mismatch row. -/
def catsDataRow (r : MRow) : CatsRow :=
  let reasons := (if r.oracleCode ≠ r.drmisCode then ["Code Mismatch"] else []) ++
                 (if r.oracleHours ≠ r.drmisHours then ["Hours Mismatch"] else [])
  let oracleEmptyB := (jsTrim r.oracleCode = "" ∨ r.oracleCode = "0") ∧ r.oracleHours = 0
  let aa_code :=
    if oracleEmptyB then
      if r.drmisCode ≠ "" ∧ r.drmisCode ≠ "0" then codeVal r.drmisCode else .str ""
    else
      if r.oracleCode ≠ "" ∧ r.oracleCode ≠ "0" then codeVal r.oracleCode
      else if r.drmisCode ≠ "" ∧ r.drmisCode ≠ "0" then codeVal r.drmisCode
      else .str ""
  let hoursValue : ℚ := if oracleEmptyB then 0 else r.oracleHours
  { pers_no :=
      if r.pers ≠ "" then
        match jsNumOfString r.pers with
        | some q => .num q
        | none => .nan
      else .str ""
    date := formattedDateForDisplay r.date
    work_order := ""
    act := ""
    aa_code := aa_code
    hours := .num hoursValue
    discrepancy_reason := joinSep ", " reasons
    row_type := "data-row"
    editable := false
    original_drmis_code := jsTrim r.drmisCode
    original_drmis_hours := r.drmisHours
    replaced := !(r.oracleCode == "") && !(r.oracleCode == "0") &&
      !(jsTrim r.drmisCode == "") && !(jsTrim r.drmisCode == "0") &&
      !(r.oracleCode == jsTrim r.drmisCode) }

/- The accompanying total-row (fields the source object does not carry are
given their neutral defaults). -/
def catsTotalRow (r : MRow) : CatsRow :=
  { pers_no := .str "", date := "", work_order := "", act := "",
    aa_code := .str "Total Hours",
    hours := if r.oracleHours = 0 then .str "" else .num r.oracleHours,
    discrepancy_reason := "", row_type := "total-row", editable := false,
    original_drmis_code := "", original_drmis_hours := 0, replaced := false }

def generateCatsEdits (mismatches : List MRow) : List CatsRow :=
  mismatches.foldr (fun r acc => catsDataRow r :: catsTotalRow r :: acc) []

/- Claim C4's resolution rule, written from the spec's wording: if the Oracle
side is effectively empty (code blank or "0" and hours 0), target the DRMIS
code (blank when it is absent or "0") with zero hours; otherwise prefer the
present non-"0" Oracle code, then the present non-"0" DRMIS code, else
blank, with the Oracle hours. -/
def specTargetCode (oc : String) (oh : ℚ) (dc : String) : JsVal :=
  if (jsTrim oc = "" ∨ oc = "0") ∧ oh = 0 then
    if dc ≠ "" ∧ dc ≠ "0" then codeVal dc else .str ""
  else if oc ≠ "" ∧ oc ≠ "0" then codeVal oc
  else if dc ≠ "" ∧ dc ≠ "0" then codeVal dc
  else .str ""

def specTargetHours (oc : String) (oh : ℚ) : ℚ :=
  if (jsTrim oc = "" ∨ oc = "0") ∧ oh = 0 then 0 else oh

/- A parsed sheet row: the header-keyed record, with keys in insertion
order (JavaScript object key order). -/
abbrev RowObj := List (String × CellValue)

def objKeys (r : RowObj) : List String := r.map Prod.fst

/- JS property lookup on a record. -/
def lookupKey (r : RowObj) (k : String) : Option CellValue :=
  (r.find? (fun p => p.1 == k)).map Prod.snd

/- lowerMap construction: `keys.forEach(k => lowerMap[k.toLowerCase().trim()] = k)`
with JS object semantics — a repeated lowered key keeps its first position
but takes the last original key as its value. -/
def buildLowerMap (keys : List String) : List (String × String) :=
  keys.foldl (fun lm k =>
    let lk := jsTrim (lowerStr k)
    if (lm.find? (fun p => p.1 == lk)).isSome then
      lm.map (fun p => if p.1 == lk then (p.1, k) else p)
    else lm ++ [(lk, k)]) []

/- `Object.keys(lowerMap).find(pred)` followed by `lowerMap[found]`. -/
def findLower (lm : List (String × String)) (pred : String → Bool) : Option String :=
  (lm.find? (fun p => pred p.1)).map Prod.snd

/- `lowerMap[k] || null`. -/
def lookupLower (lm : List (String × String)) (k : String) : Option String :=
  (lm.find? (fun p => p.1 == k)).map Prod.snd

def drmisPersKey (lm : List (String × String)) : Option String :=
  findLower lm (fun k => hasSub k "pers" && hasSub k "no")

def drmisDateKey (lm : List (String × String)) : Option String :=
  lookupLower lm "date"

def drmisHoursKey (lm : List (String × String)) : Option String :=
  lookupLower lm "hours"

def drmisAtypeKey (lm : List (String × String)) : Option String :=
  findLower lm (fun k => hasSub k "a/a" && hasSub k "type" && !(hasSub k "text"))

def drmisMissing (lm : List (String × String)) : List String :=
  (if (drmisPersKey lm).isSome then [] else ["Pers No"]) ++
  (if (drmisDateKey lm).isSome then [] else ["Date"]) ++
  (if (drmisHoursKey lm).isSome then [] else ["Hours"]) ++
  (if (drmisAtypeKey lm).isSome then [] else ["A/A Type"])

def oracleFromDateKey (lm : List (String × String)) : Option String :=
  match findLower lm (fun k => hasSub k "from" && hasSub k "date") with
  | some k => some k
  | none => lookupLower lm "date"

def oracleHoursKey (lm : List (String × String)) : Option String :=
  match findLower lm (fun k => hasSub k "hours" && hasSub k "recorded") with
  | some k => some k
  | none => lookupLower lm "hours"

def oracleLeaveCodeKey (lm : List (String × String)) : Option String :=
  findLower lm (fun k => hasSub k "leave" && hasSub k "code")

def oracleMissing (lm : List (String × String)) : List String :=
  (if (oracleFromDateKey lm).isSome then [] else ["From Date"]) ++
  (if (oracleHoursKey lm).isSome then [] else ["Hours Recorded"]) ++
  (if (oracleLeaveCodeKey lm).isSome then [] else ["Leave Code"])

/- The MissingColumns error message: names every missing required field and
lists all available headers. -/
def missingMsg (sys : String) (missing keys : List String) : String :=
  sys ++ " file is missing required columns: " ++ joinSep ", " missing ++
  ". Available columns: " ++ joinSep ", " keys

/- Reading a cell through a resolved (optional) column key. -/
def optCell (k : Option String) (r : RowObj) : CellValue :=
  match k with
  | some key => (lookupKey r key).getD .empty
  | none => .empty

def cellStrOrEmpty (c : CellValue) : String :=
  match c with
  | .empty => ""
  | c' => jsCellStr c'

/- The DRMIS whitelist drop rule (active whitelist only). -/
def wlDropDrmis (wl : Option (List String)) (leaveStr : String) : Bool :=
  match wl with
  | none => false
  | some codes =>
    if codes = [] then false
    else !(codes.contains (if leaveStr = "0" then "0" else stripNonDigits leaveStr))

/- The Oracle whitelist drop rule: "0" never passes an active whitelist. -/
def wlDropOracle (wl : Option (List String)) (key : String) : Bool :=
  match wl with
  | none => false
  | some codes =>
    if codes = [] then false
    else if key = "0" then true
    else !(codes.contains key)

/- extractDrmisData.  `fb` is the Date.parse fallback of normalizeDate; `wl`
the optional leave-code whitelist. -/
def extractDrmisData (fb : String → Option Int) (wl : Option (List String))
    (rows : List RowObj) : Except String (List DRec) :=
  match rows with
  | [] => .ok []
  | first :: _ =>
    let keys := objKeys first
    let lm := buildLowerMap keys
    if drmisMissing lm ≠ [] then
      .error (missingMsg "DRMIS" (drmisMissing lm) keys)
    else
      .ok (rows.foldr (fun r acc =>
        match normalizeDate fb (optCell (drmisDateKey lm) r) with
        | none => acc
        | some d =>
          let pers := cellStrOrEmpty (optCell (drmisPersKey lm) r)
          let drmisHours := jsNumOr0 (optCell (drmisHoursKey lm) r)
          let leaveStr := normalizeLeaveCodeRaw (optCell (drmisAtypeKey lm) r)
          if startsWithStr leaveStr "30" then acc
          else if wlDropDrmis wl leaveStr then acc
          else ⟨pers, d, drmisHours, leaveStr⟩ :: acc) [])

/- extractOracleData, including the fixed exclusion set and the final
multi-day expansion. -/
def extractOracleData (fb : String → Option Int) (wl : Option (List String))
    (rows : List RowObj) : Except String (List OEntry) :=
  match rows with
  | [] => .ok []
  | first :: _ =>
    let keys := objKeys first
    let lm := buildLowerMap keys
    if oracleMissing lm ≠ [] then
      .error (missingMsg "ORACLE" (oracleMissing lm) keys)
    else
      .ok (expandOracleEntries (rows.foldr (fun r acc =>
        match normalizeDate fb (optCell (oracleFromDateKey lm) r) with
        | none => acc
        | some d =>
          let hours := jsNumOr0 (optCell (oracleHoursKey lm) r)
          let oracleKey := normalizeOracleCode (optCell (oracleLeaveCodeKey lm) r)
          if ["1200", "1260", "1261", "1660"].contains oracleKey then acc
          else if wlDropOracle wl oracleKey then acc
          else ⟨d, hours, oracleKey⟩ :: acc) []))

/- ------------------- header detection (sheetRowsToObjects) --------------- -/

def headerKeywords : List String :=
  ["pers", "pers.no", "pers no", "pers_no", "date", "hours", "a/atype",
   "aatype", "a a type", "a a", "leave", "leave code", "a/a type", "a/atype"]

/- The per-cell normalisation of the header scan: '' for null cells, else
String(c).trim().toLowerCase(). -/
def cellNorm (c : CellValue) : String :=
  match c with
  | .empty => ""
  | c' => lowerStr (jsTrim (jsCellStr c'))

def rowNonEmptyCount (r : List CellValue) : Nat :=
  ((r.map cellNorm).filter (fun x => !(x == ""))).length

def rowHasKeyword (r : List CellValue) : Bool :=
  (r.map cellNorm).any (fun x => headerKeywords.any (fun k => hasSub x k))

/- score = count(non-empty cells) + 50·hasKeywordMatch. -/
def rowScore (r : List CellValue) : Nat :=
  rowNonEmptyCount r + (if rowHasKeyword r then 50 else 0)

/- The argmax loop of sheetRowsToObjects: strict improvement from an initial
best score of -1, so the earliest row wins ties. -/
def argmaxFold (f : Nat → Int) (n : Nat) : Nat × Int :=
  (List.range n).foldl (fun best i => if f i > best.2 then (i, f i) else best) (0, -1)

def bestHeaderIdx (rows : List (List CellValue)) : Nat :=
  (argmaxFold (fun i => (rowScore (rows.getD i []) : Int)) (min 30 rows.length)).1

theorem jsMin_eq_min (a b : ℚ) : jsMin a b = min a b := (min_def a b).symm

theorem midweekHolidays_spread :
    ∀ a ∈ midweekHolidays, ∀ b ∈ midweekHolidays, a = b ∨ 7 ≤ (a - b).natAbs := by
  decide

theorem mem_midweekHolidays {h : Int} (hh : h ∈ holidays2025)
    (hd : dayOfWeek h = 2 ∨ dayOfWeek h = 3) : h ∈ midweekHolidays := by
  simp [midweekHolidays, List.mem_filter]
  exact ⟨hh, by simpa using hd⟩

theorem not_isBusinessDay_weekday {d : Int}
    (hw : dayOfWeek d = 2 ∨ dayOfWeek d = 3) (hb : isBusinessDay d = false) :
    d ∈ holidays2025 := by
  by_contra hmem
  have hc : holidays2025.contains d = false := by
    simpa using hmem
  unfold isBusinessDay at hb
  rw [hc] at hb
  rcases hw with h2 | h2 <;> rw [h2] at hb <;> norm_num at hb

theorem exists_businessDay (d : Int) :
    ∃ k : Nat, k < 7 ∧ isBusinessDay (d + k) = true := by
  -- the unique offsets hitting Tuesday and Wednesday within the window
  have mk : ∀ r : Int, 0 ≤ r → r < 7 →
      ∃ k : Nat, k < 7 ∧ dayOfWeek (d + k) = r := by
    intro r hr0 hr7
    refine ⟨((r - (d + 3)) % 7).toNat, ?_, ?_⟩
    · have h1 : (r - (d + 3)) % 7 < 7 := Int.emod_lt_of_pos _ (by norm_num)
      omega
    · have h0 : 0 ≤ (r - (d + 3)) % 7 := Int.emod_nonneg _ (by norm_num)
      have hcast : (((r - (d + 3)) % 7).toNat : Int) = (r - (d + 3)) % 7 := by omega
      unfold dayOfWeek
      rw [hcast]
      omega
  obtain ⟨k2, hk2, hd2⟩ := mk 2 (by norm_num) (by norm_num)
  obtain ⟨k3, hk3, hd3⟩ := mk 3 (by norm_num) (by norm_num)
  by_cases b2 : isBusinessDay (d + k2)
  · exact ⟨k2, hk2, b2⟩
  by_cases b3 : isBusinessDay (d + k3)
  · exact ⟨k3, hk3, b3⟩
  · exfalso
    have m2 : (d + (k2 : Int)) ∈ midweekHolidays :=
      mem_midweekHolidays
        (not_isBusinessDay_weekday (Or.inl hd2) (by simpa using b2)) (Or.inl hd2)
    have m3 : (d + (k3 : Int)) ∈ midweekHolidays :=
      mem_midweekHolidays
        (not_isBusinessDay_weekday (Or.inr hd3) (by simpa using b3)) (Or.inr hd3)
    have hne : (d + (k2 : Int)) ≠ (d + (k3 : Int)) := by
      intro he
      rw [he] at hd2
      omega
    rcases midweekHolidays_spread _ m2 _ m3 with he | hfar
    · exact hne he
    · omega

theorem nextBusinessDayFrom_spec {fuel : Nat} {d : Int}
    (h : ∃ k : Nat, k < fuel ∧ isBusinessDay (d + k) = true) :
    isBusinessDay (nextBusinessDayFrom fuel d) = true := by
  induction fuel generalizing d with
  | zero => obtain ⟨k, hk, _⟩ := h; omega
  | succ n ih =>
    obtain ⟨k, hk, hb⟩ := h
    unfold nextBusinessDayFrom
    by_cases hd : isBusinessDay d
    · simp [hd]
    · simp only [hd, if_false]
      apply ih
      have hk0 : k ≠ 0 := by
        intro h0
        rw [h0] at hb
        simp at hb
        exact hd (by simpa using hb)
      refine ⟨k - 1, by omega, ?_⟩
      have : (d + 1 + ((k - 1 : Nat) : Int)) = d + k := by omega
      rw [this]
      exact hb

theorem nextBusinessDay_isBusinessDay (d : Int) :
    isBusinessDay (nextBusinessDay d) = true :=
  nextBusinessDayFrom_spec (exists_businessDay d)

theorem nextBusinessDayFrom_ge (fuel : Nat) (d : Int) :
    d ≤ nextBusinessDayFrom fuel d := by
  induction fuel generalizing d with
  | zero => simp [nextBusinessDayFrom]
  | succ n ih =>
    unfold nextBusinessDayFrom
    by_cases hd : isBusinessDay d
    · simp [hd]
    · simp only [hd, if_false]
      have := ih (d + 1)
      omega

theorem nextBusinessDay_ge (d : Int) : d ≤ nextBusinessDay d :=
  nextBusinessDayFrom_ge 7 d

theorem nextBusinessDay_of_isBusinessDay {d : Int} (h : isBusinessDay d = true) :
    nextBusinessDay d = d := by
  unfold nextBusinessDay nextBusinessDayFrom
  simp [h]

/- ------------------- cell values and string utilities ------------------- -/

/- ------------------- expansion loop lemmas ------------------- -/

theorem expandLoop_eq_nil {code : String} {fuel : Nat} {rem : ℚ} {cur : Int}
    (h : rem ≤ 0) : expandLoop code fuel rem cur = [] := by
  cases fuel with
  | zero => rfl
  | succ n => simp [expandLoop, not_lt.mpr h]

theorem expandLoop_sum {code : String} (fuel : Nat) (rem : ℚ) (cur : Int)
    (h : rem ≤ 8 * fuel) :
    ((expandLoop code fuel rem cur).map OEntry.hours).sum = max 0 rem := by
  induction fuel generalizing rem cur with
  | zero =>
    simp only [Nat.cast_zero, mul_zero] at h
    rw [expandLoop_eq_nil h]
    simp [max_eq_left h]
  | succ n ih =>
    by_cases hr : 0 < rem
    · simp only [expandLoop, if_pos hr, jsMin_eq_min, List.map_cons, List.sum_cons]
      rcases le_or_lt rem 8 with h8 | h8
      · have hm : min (8 : ℚ) rem = rem := min_eq_right h8
        rw [hm]
        have h0 : rem - rem ≤ 8 * (n : ℚ) := by
          have : (0 : ℚ) ≤ 8 * n := by positivity
          linarith
        rw [ih _ _ h0]
        simp [max_eq_right (le_of_lt hr)]
      · have hm : min (8 : ℚ) rem = 8 := min_eq_left (le_of_lt h8)
        rw [hm]
        have h0 : rem - 8 ≤ 8 * (n : ℚ) := by
          push_cast at h
          linarith
        rw [ih _ _ h0]
        rw [max_eq_right (by linarith), max_eq_right (le_of_lt hr)]
        ring
    · rw [expandLoop_eq_nil (not_lt.mp hr)]
      simp [max_eq_left (not_lt.mp hr)]

theorem expandLoop_mem {code : String} (fuel : Nat) (rem : ℚ) (cur : Int)
    (e : OEntry) (he : e ∈ expandLoop code fuel rem cur) :
    isBusinessDay e.date = true ∧ e.code = code ∧ cur ≤ e.date := by
  induction fuel generalizing rem cur with
  | zero => simp [expandLoop] at he
  | succ n ih =>
    by_cases hr : 0 < rem
    · simp only [expandLoop, if_pos hr, jsMin_eq_min, List.mem_cons] at he
      rcases he with rfl | he
      · exact ⟨nextBusinessDay_isBusinessDay cur, rfl, nextBusinessDay_ge cur⟩
      · obtain ⟨h1, h2, h3⟩ := ih _ _ he
        refine ⟨h1, h2, ?_⟩
        have := nextBusinessDay_ge cur
        omega
    · rw [expandLoop_eq_nil (not_lt.mp hr)] at he
      simp at he

theorem expandLoop_pairwise {code : String} (fuel : Nat) (rem : ℚ) (cur : Int) :
    List.Pairwise (fun a b : OEntry => a.date < b.date)
      (expandLoop code fuel rem cur) := by
  induction fuel generalizing rem cur with
  | zero => simp [expandLoop]
  | succ n ih =>
    by_cases hr : 0 < rem
    · simp only [expandLoop, if_pos hr, jsMin_eq_min]
      refine List.Pairwise.cons ?_ (ih _ _)
      intro b hb
      obtain ⟨_, _, h3⟩ := expandLoop_mem _ _ _ _ hb
      show nextBusinessDay cur < b.date
      omega
    · rw [expandLoop_eq_nil (not_lt.mp hr)]
      exact List.Pairwise.nil

theorem expandLoop_hours_at {code : String} (fuel : Nat) (rem : ℚ) (cur : Int)
    (i : Nat) (e : OEntry) (he : (expandLoop code fuel rem cur)[i]? = some e) :
    e.hours = min 8 (rem - 8 * i) := by
  induction fuel generalizing rem cur i with
  | zero => simp [expandLoop] at he
  | succ n ih =>
    by_cases hr : 0 < rem
    · simp only [expandLoop, if_pos hr, jsMin_eq_min] at he
      cases i with
      | zero =>
        simp at he
        rw [← he]
        norm_num
      | succ j =>
        simp only [List.getElem?_cons_succ] at he
        rcases le_or_lt rem 8 with h8 | h8
        · have hm : min (8 : ℚ) rem = rem := min_eq_right h8
          rw [hm, expandLoop_eq_nil (by linarith : rem - rem ≤ 0)] at he
          simp at he
        · have hm : min (8 : ℚ) rem = 8 := min_eq_left (le_of_lt h8)
          rw [hm] at he
          have := ih _ _ _ he
          rw [this]
          congr 1
          push_cast
          ring
    · rw [expandLoop_eq_nil (not_lt.mp hr)] at he
      simp at he

theorem expandLoop_stable {code : String} (fuel extra : Nat) (rem : ℚ) (cur : Int)
    (h : rem ≤ 8 * fuel) :
    expandLoop code fuel rem cur = expandLoop code (fuel + extra) rem cur := by
  induction fuel generalizing rem cur with
  | zero =>
    simp only [Nat.cast_zero, mul_zero] at h
    rw [expandLoop_eq_nil h, expandLoop_eq_nil h]
  | succ n ih =>
    by_cases hr : 0 < rem
    · have : n + 1 + extra = (n + extra) + 1 := by omega
      rw [this]
      simp only [expandLoop, if_pos hr, jsMin_eq_min]
      congr 1
      apply ih
      rcases le_or_lt rem 8 with h8 | h8
      · have hm : min (8 : ℚ) rem = rem := min_eq_right h8
        rw [hm]
        have : (0 : ℚ) ≤ 8 * n := by positivity
        linarith
      · have hm : min (8 : ℚ) rem = 8 := min_eq_left (le_of_lt h8)
        rw [hm]
        push_cast at h
        linarith
    · rw [expandLoop_eq_nil (not_lt.mp hr), expandLoop_eq_nil (not_lt.mp hr)]

theorem expandLoop_cons {code : String} {rem : ℚ} (hr : 0 < rem) (fuel : Nat)
    (cur : Int) :
    expandLoop code (fuel + 1) rem cur =
      ⟨nextBusinessDay cur, jsMin 8 rem, code⟩ ::
        expandLoop code fuel (rem - jsMin 8 rem) (nextBusinessDay cur + 1) := by
  simp [expandLoop, hr]

theorem le_mul_expandFuel (rem : ℚ) : rem ≤ 8 * (expandFuel rem : ℚ) := by
  unfold expandFuel
  push_cast
  rcases le_or_lt rem 0 with h0 | h0
  · have : (0 : ℚ) ≤ 8 * ((rem.num.toNat : ℚ) + 1) := by positivity
    linarith
  · have hd : (1 : ℚ) ≤ (rem.den : ℚ) := by
      exact_mod_cast rem.den_pos
    have hnum : rem * (rem.den : ℚ) = (rem.num : ℚ) := by
      rw [mul_comm]
      exact_mod_cast Rat.den_mul_eq_num rem
    have hle : rem ≤ (rem.num : ℚ) := by nlinarith
    have htn : ((rem.num : Int) : ℚ) ≤ ((rem.num.toNat : Nat) : ℚ) := by
      exact_mod_cast Int.self_le_toNat rem.num
    linarith

/-- C2: for every pre-expansion Oracle record with numeric hours h, multi-day
expansion emits the record unchanged when h ≤ 8; when h > 8 it emits records
on strictly increasing business days, starting at the record's own date when
that date is a business day, each carrying the same leave code and
min(8, remaining) hours, and the emitted hours sum exactly to h. -/
theorem expandRecord_spec (r : ORec) :
    (r.hours ≤ 8 → expandRecord r = [⟨r.date, r.hours, r.code⟩]) ∧
    (8 < r.hours →
      (∀ e ∈ expandRecord r, isBusinessDay e.date = true ∧ e.code = r.code) ∧
      List.Pairwise (fun a b : OEntry => a.date < b.date) (expandRecord r) ∧
      (isBusinessDay r.date = true →
        (expandRecord r).head?.map OEntry.date = some r.date) ∧
      (∀ (i : Nat) (e : OEntry), (expandRecord r)[i]? = some e →
        e.hours = min 8 (r.hours - 8 * i)) ∧
      ((expandRecord r).map OEntry.hours).sum = r.hours) := by
  constructor
  · intro h8
    simp [expandRecord, h8]
  · intro h8
    have hnle : ¬ r.hours ≤ 8 := not_le.mpr h8
    have hx : expandRecord r = expandLoop r.code (expandFuel r.hours) r.hours r.date := by
      simp [expandRecord, hnle]
    refine ⟨?_, ?_, ?_, ?_, ?_⟩
    · intro e he
      rw [hx] at he
      obtain ⟨h1, h2, _⟩ := expandLoop_mem _ _ _ _ he
      exact ⟨h1, h2⟩
    · rw [hx]
      exact expandLoop_pairwise _ _ _
    · intro hbd
      rw [hx]
      show ((expandLoop r.code (r.hours.num.toNat + 1) r.hours r.date).head?.map
        OEntry.date) = some r.date
      simp only [expandLoop, if_pos (by linarith : (0 : ℚ) < r.hours), jsMin_eq_min]
      simp [nextBusinessDay_of_isBusinessDay hbd]
    · intro i e he
      rw [hx] at he
      exact expandLoop_hours_at _ _ _ _ _ he
    · rw [hx]
      rw [expandLoop_sum _ _ _ (le_mul_expandFuel r.hours)]
      exact max_eq_right (by linarith)

/-- C2 witness: a 20-hour record starting Monday 2025-04-28 expands to three
records of 8, 8 and 4 hours on the three consecutive business days
2025-04-28, 2025-04-29 and 2025-04-30, summing to 20 exactly. -/
theorem expandRecord_spec_witness :
    expandRecord ⟨jsDate 2025 3 28, 20, "1110"⟩ =
      [⟨jsDate 2025 3 28, 8, "1110"⟩, ⟨jsDate 2025 3 29, 8, "1110"⟩,
       ⟨jsDate 2025 3 30, 4, "1110"⟩] ∧
    ((expandRecord ⟨jsDate 2025 3 28, 20, "1110"⟩).map OEntry.hours).sum = 20 := by
  refine ⟨?_, ((expandRecord_spec ⟨jsDate 2025 3 28, 20, "1110"⟩).2
      (by norm_num)).2.2.2.2⟩
  have hb0 : nextBusinessDay (jsDate 2025 3 28) = jsDate 2025 3 28 := by decide
  have hd1 : jsDate 2025 3 28 + 1 = jsDate 2025 3 29 := by decide
  have hb1 : nextBusinessDay (jsDate 2025 3 29) = jsDate 2025 3 29 := by decide
  have hd2 : jsDate 2025 3 29 + 1 = jsDate 2025 3 30 := by decide
  have hb2 : nextBusinessDay (jsDate 2025 3 30) = jsDate 2025 3 30 := by decide
  have hfuel : expandFuel (20 : ℚ) = 20 + 1 := by decide
  have hm20 : jsMin 8 (20 : ℚ) = 8 := by norm_num [jsMin]
  have hm12 : jsMin 8 (12 : ℚ) = 8 := by norm_num [jsMin]
  have hm4 : jsMin 8 (4 : ℚ) = 4 := by norm_num [jsMin]
  have hval : ¬ ((20 : ℚ) ≤ 8) := by norm_num
  rw [expandRecord]
  rw [if_neg (by exact hval)]
  rw [hfuel]
  rw [expandLoop_cons (by norm_num) 20, hb0, hd1, hm20]
  rw [show (20 : ℚ) - 8 = 12 by norm_num]
  rw [show (20 : Nat) = 19 + 1 from rfl]
  rw [expandLoop_cons (by norm_num) 19, hb1, hd2, hm12]
  rw [show (12 : ℚ) - 8 = 4 by norm_num]
  rw [show (19 : Nat) = 18 + 1 from rfl]
  rw [expandLoop_cons (by norm_num) 18, hb2, hm4]
  rw [show (4 : ℚ) - 4 = 0 by norm_num]
  rw [expandLoop_eq_nil le_rfl]

/-- C9: every pipeline stage terminates; in particular the inner
advance-to-next-business-day scan always reaches a business day, and the
multi-day expansion loop has stabilised at the fuel expandRecord gives it
(running it any longer produces the same output, i.e. the source's unbounded
loop finishes). -/
theorem pipeline_terminates :
    (∀ d : Int, isBusinessDay (nextBusinessDay d) = true) ∧
    (∀ (code : String) (fuel extra : Nat) (rem : ℚ) (cur : Int),
      rem ≤ 8 * fuel →
      expandLoop code fuel rem cur = expandLoop code (fuel + extra) rem cur) ∧
    (∀ (r : ORec) (extra : Nat), 8 < r.hours →
      expandRecord r =
        expandLoop r.code (expandFuel r.hours + extra) r.hours r.date) := by
  refine ⟨nextBusinessDay_isBusinessDay, ?_, ?_⟩
  · intro code fuel extra rem cur h
    exact expandLoop_stable fuel extra rem cur h
  · intro r extra h8
    have hnle : ¬ r.hours ≤ 8 := not_le.mpr h8
    simp only [expandRecord, hnle, if_false]
    exact expandLoop_stable _ extra _ _ (le_mul_expandFuel r.hours)

/-- C9 witness: the expansion loop for a 20-hour record is unchanged by extra
fuel, at a concrete record. -/
theorem pipeline_terminates_witness :
    expandRecord ⟨jsDate 2025 3 28, 20, "1110"⟩ =
      expandLoop "1110" (expandFuel 20 + 5) 20 (jsDate 2025 3 28) :=
  pipeline_terminates.2.2 ⟨jsDate 2025 3 28, 20, "1110"⟩ 5 (by norm_num)

theorem isCents_floor2 (q : ℚ) : isCents (floor2 q) := ⟨⌊q * 100⌋, rfl⟩

theorem isCents_add {a b : ℚ} (ha : isCents a) (hb : isCents b) : isCents (a + b) := by
  obtain ⟨k, rfl⟩ := ha
  obtain ⟨m, rfl⟩ := hb
  exact ⟨k + m, by push_cast; ring⟩

theorem isCents_sub {a b : ℚ} (ha : isCents a) (hb : isCents b) : isCents (a - b) := by
  obtain ⟨k, rfl⟩ := ha
  obtain ⟨m, rfl⟩ := hb
  exact ⟨k - m, by push_cast; ring⟩

theorem isCents_zero : isCents 0 := ⟨0, by norm_num⟩

theorem isCents_sum_map (rs : List ℚ) (f : ℚ → ℚ) (h : ∀ x, isCents (f x)) :
    isCents ((rs.map f).sum) := by
  induction rs with
  | nil => simpa using isCents_zero
  | cons a t ih => simpa using isCents_add (h a) ih

theorem round2_cents {q : ℚ} (h : isCents q) : round2 q = q := by
  obtain ⟨k, rfl⟩ := h
  unfold round2
  rw [div_mul_cancel₀ (k : ℚ) (by norm_num : (100 : ℚ) ≠ 0)]
  rw [round_intCast]

theorem floor2_le (q : ℚ) : floor2 q ≤ q := by
  unfold floor2
  have h := Int.floor_le (q * 100)
  linarith

theorem list_sum_map_add (rs : List ℚ) (f g : ℚ → ℚ) :
    (rs.map fun h => f h + g h).sum = (rs.map f).sum + (rs.map g).sum := by
  induction rs with
  | nil => simp
  | cons a t ih => simp [ih]; ring

theorem list_sum_map_share (rs : List ℚ) (S t : ℚ) :
    (rs.map fun h => h / S * t).sum = rs.sum / S * t := by
  induction rs with
  | nil => simp
  | cons a l ih => simp [ih]; ring

/-- C1 (amended): in the "Oracle removed DRMIS leave" branch, when the
candidates' available total is positive each non-first candidate receives
exactly floor(available_i / sum × toAdd, 2 decimals); the first additionally
receives the rounding remainder round(toAdd − Σshares, 2 decimals) when it is
positive; the added amounts sum exactly to toAdd whenever toAdd is a whole
number of cents (the claim's unconditional "sums exactly" fails for other
values, see the counterexample).  When the available total is 0 the whole
amount goes to the first candidate. -/
theorem redistribute_spec (rs : List ℚ) (toAdd : ℚ) (hne : rs ≠ []) :
    (0 < rs.sum →
      (redistribute rs toAdd).length = rs.length ∧
      (∀ i : Nat, 0 < i →
        (redistribute rs toAdd)[i]? =
          (rs[i]?).map fun x => x + floor2 (x / rs.sum * toAdd)) ∧
      (redistribute rs toAdd).head? =
        some (rs.headI + floor2 (rs.headI / rs.sum * toAdd) +
          max 0 (round2 (toAdd - (rs.map fun h => floor2 (h / rs.sum * toAdd)).sum))) ∧
      (isCents toAdd → (redistribute rs toAdd).sum = rs.sum + toAdd)) ∧
    (rs.sum = 0 → redistribute rs toAdd = (rs.headI + toAdd) :: rs.tail) := by
  obtain ⟨a, t, rfl⟩ : ∃ a t, rs = a :: t := by
    cases rs with
    | nil => exact absurd rfl hne
    | cons a t => exact ⟨a, t, rfl⟩
  constructor
  · intro hS
    have hS0 : (a :: t).sum ≠ 0 := ne_of_gt hS
    have halloc_le :
        ((a :: t).map fun h => floor2 (h / (a :: t).sum * toAdd)).sum ≤ toAdd := by
      calc ((a :: t).map fun h => floor2 (h / (a :: t).sum * toAdd)).sum
          ≤ ((a :: t).map fun h => h / (a :: t).sum * toAdd).sum :=
            List.sum_le_sum (fun i _ => floor2_le _)
        _ = (a :: t).sum / (a :: t).sum * toAdd := list_sum_map_share _ _ _
        _ = toAdd := by rw [div_self hS0, one_mul]
    have hsum_upd :
        ((a :: t).map fun h => h + floor2 (h / (a :: t).sum * toAdd)).sum =
          (a :: t).sum + ((a :: t).map fun h => floor2 (h / (a :: t).sum * toAdd)).sum := by
      have := list_sum_map_add (a :: t) (fun h => h)
        (fun h => floor2 (h / (a :: t).sum * toAdd))
      simpa using this
    have hcal : isCents ((a :: t).map fun h => floor2 (h / (a :: t).sum * toAdd)).sum :=
      isCents_sum_map _ _ (fun x => isCents_floor2 _)
    simp only [List.map_cons, List.sum_cons,
      List.headI_cons] at hS hS0 halloc_le hsum_upd hcal ⊢
    simp only [redistribute, List.map_cons, List.sum_cons, if_pos hS]
    split_ifs with hr
    · refine ⟨by simp, ?_, ?_, ?_⟩
      · intro i hi
        cases i with
        | zero => omega
        | succ j => simp [List.getElem?_map]
      · simp only [List.head?_cons]
        rw [max_eq_right (le_of_lt hr)]
      · intro hc
        have hex := round2_cents (isCents_sub hc hcal)
        simp only [List.sum_cons]
        rw [hex]
        linarith [hsum_upd]
    · refine ⟨by simp, ?_, ?_, ?_⟩
      · intro i hi
        cases i with
        | zero => omega
        | succ j => simp [List.getElem?_map]
      · simp only [List.head?_cons]
        rw [max_eq_left (not_lt.mp hr)]
        simp
      · intro hc
        have hex := round2_cents (isCents_sub hc hcal)
        have hzero : toAdd -
            (floor2 (a / (a + t.sum) * toAdd) +
              (t.map fun h => floor2 (h / (a + t.sum) * toAdd)).sum) = 0 := by
          have h1 := not_lt.mp hr
          rw [hex] at h1
          linarith
        simp only [List.sum_cons]
        linarith [hsum_upd]
  · intro h0
    have h0n : ¬ 0 < (a :: t).sum := by rw [h0]; exact lt_irrefl 0
    simp only [redistribute, if_neg h0n]
    simp

/-- C1 counterexample: as literally stated the claim requires the added
amounts to sum to originalDrmisHours for every value; with one candidate of 1
available hour and toAdd = 0.005 the engine adds 0.01, not 0.005. -/
theorem redistribute_claim_counterexample :
    redistribute [1] (1 / 200) = [101 / 100] ∧
    (redistribute [1] (1 / 200)).sum ≠ ([1] : List ℚ).sum + 1 / 200 := by
  have h : redistribute [1] (1 / 200 : ℚ) = [101 / 100] := by
    norm_num [redistribute, floor2, round2, round_eq]
  refine ⟨h, ?_⟩
  rw [h]
  norm_num

/-- C1 witness: with available hours [3, 5] and toAdd = 4 the updated hours
are [3 + 1.50, 5 + 2.50] and the added amounts sum exactly to 4. -/
theorem redistribute_spec_witness :
    redistribute [3, 5] 4 = [9 / 2, 15 / 2] ∧
    (redistribute [3, 5] 4).sum = ([3, 5] : List ℚ).sum + 4 := by
  constructor
  · norm_num [redistribute, floor2, round2, round_eq]
  · exact (((redistribute_spec [3, 5] 4 (by simp)).1 (by norm_num)).2.2.2) ⟨400, by norm_num⟩

/- ------------------- C5 theorems ------------------- -/

theorem oracleRemap_raw_eq_amendedStr (s0 : String) :
    oracleRemap (rawNormalize s0) = amendedStr s0 := by
  unfold oracleRemap rawNormalize amendedStr
  by_cases hc : jsTrim s0 = "" ∨ jsTrim s0 = "-"
  · simp [hc]
  · simp [hc]

/-- C5 counterexample: the claim's strip-then-length-remap account predicts ""
for the all-letter input "abc" (no digits survive the strip, length 0 is
"kept as-is"), but the code keeps the original trimmed string as the
normalised form and then applies the length remap to it, producing "1abc". -/
theorem normalizeOracleCode_claim_counterexample :
    normalizeOracleCode (.str "abc") = "1abc" ∧
    claimedNormalizeOracleCode (.str "abc") = "" ∧
    normalizeOracleCode (.str "abc") ≠ claimedNormalizeOracleCode (.str "abc") := by
  refine ⟨by decide, by decide, by decide⟩

/-- C5 (amended): Oracle code normalisation maps empty/whitespace/dash to
"0"; otherwise it strips non-digits, keeping the trimmed original string when
no digit remains, and remaps the resulting string by length: "0" stays "0",
length 3 gets a leading "1", length 4 is unchanged, any other length is kept
as-is; in particular "110" ↦ "1110", "1110" ↦ "1110", "" ↦ "0", "-" ↦ "0". -/
theorem normalizeOracleCode_spec :
    (∀ v, normalizeOracleCode v = amendedNormalizeOracleCode v) ∧
    normalizeOracleCode (.str "110") = "1110" ∧
    normalizeOracleCode (.str "1110") = "1110" ∧
    normalizeOracleCode (.str "") = "0" ∧
    normalizeOracleCode (.str "-") = "0" := by
  refine ⟨?_, by decide, by decide, by decide, by decide⟩
  intro v
  cases v with
  | empty => rfl
  | num q => exact oracleRemap_raw_eq_amendedStr _
  | str s => exact oracleRemap_raw_eq_amendedStr _
  | dateV d ms => exact oracleRemap_raw_eq_amendedStr _

/- ------------------- C6 theorem ------------------- -/

/-- C6: normalizeDate treats numbers as spreadsheet day serials against the
1899-12-30 epoch floored to whole days (serial 1 is 1899-12-31); strings are
tried against D.M.YYYY, D-M-YYYY, M/D/YYYY and YYYY-M-D in that order (the
dotted and single-dash forms day-first, the slashed form month-first) before
the general parsing fallback; native date values are truncated to their
calendar day. -/
theorem normalizeDate_spec :
    (∀ (fb : String → Option Int) (q : ℚ),
      normalizeDate fb (.num q) = some (jsDate 1899 11 30 + ⌊q⌋)) ∧
    (∀ fb : String → Option Int,
      normalizeDate fb (.num 1) = some (jsDate 1899 11 31)) ∧
    (∀ fb : String → Option Int,
      normalizeDate fb (.str "28.04.2025") = some (jsDate 2025 3 28)) ∧
    (∀ fb : String → Option Int,
      normalizeDate fb (.str "2025-04-28") = some (jsDate 2025 3 28)) ∧
    (∀ fb : String → Option Int,
      normalizeDate fb (.str "01.02.2025") = some (jsDate 2025 1 1)) ∧
    (∀ fb : String → Option Int,
      normalizeDate fb (.str "01/02/2025") = some (jsDate 2025 0 2)) ∧
    (∀ (fb : String → Option Int) (d : Int) (ms : Nat),
      normalizeDate fb (.dateV d ms) = some d) ∧
    (∀ fb : String → Option Int,
      normalizeDate fb (.str "April 28, 2025") = fb "April 28, 2025") := by
  have hnum : ∀ (fb : String → Option Int) (q : ℚ),
      normalizeDate fb (.num q) = some (jsDate 1899 11 30 + ⌊q⌋) := by
    intro fb q
    show some ⌊((jsDate 1899 11 30 : ℚ) * msPerDay + q * msPerDay) / msPerDay⌋ = _
    have hms : msPerDay ≠ 0 := by norm_num [msPerDay]
    have hdiv : ((jsDate 1899 11 30 : ℚ) * msPerDay + q * msPerDay) / msPerDay =
        (jsDate 1899 11 30 : ℚ) + q := by
      field_simp
      ring
    rw [hdiv]
    rw [Int.floor_int_add]
  refine ⟨hnum, ?_, by intro fb; rfl, by intro fb; rfl, by intro fb; rfl,
    by intro fb; rfl, by intro fb ms d; rfl, by intro fb; rfl⟩
  intro fb
  rw [hnum fb 1]
  norm_num
  decide

/- ------------------- reconciliation data model ------------------- -/

/- ------------------- sorting lemmas ------------------- -/

theorem mem_insertByDate {x y : MRow} {l : List MRow} :
    y ∈ insertByDate x l ↔ y = x ∨ y ∈ l := by
  induction l with
  | nil => simp [insertByDate]
  | cons z zs ih =>
    unfold insertByDate
    by_cases h : x.date < z.date
    · simp [h]
    · simp only [if_neg h, List.mem_cons, ih]
      tauto

theorem pairwise_insertByDate {x : MRow} {l : List MRow}
    (h : List.Pairwise (fun a b : MRow => a.date ≤ b.date) l) :
    List.Pairwise (fun a b : MRow => a.date ≤ b.date) (insertByDate x l) := by
  induction l with
  | nil => simp [insertByDate]
  | cons z zs ih =>
    unfold insertByDate
    by_cases hlt : x.date < z.date
    · rw [if_pos hlt]
      refine List.Pairwise.cons ?_ h
      intro b hb
      rcases List.mem_cons.mp hb with rfl | hb
      · exact le_of_lt hlt
      · have := (List.pairwise_cons.mp h).1 b hb
        omega
    · rw [if_neg hlt]
      have hz := List.pairwise_cons.mp h
      refine List.Pairwise.cons ?_ (ih hz.2)
      intro b hb
      rcases mem_insertByDate.mp hb with rfl | hb
      · omega
      · exact hz.1 b hb

theorem mem_sortByDate_aux {x : MRow} (l acc : List MRow) :
    x ∈ l.foldl (fun a r => insertByDate r a) acc ↔ x ∈ acc ∨ x ∈ l := by
  induction l generalizing acc with
  | nil => simp
  | cons z zs ih =>
    simp only [List.foldl_cons, ih, mem_insertByDate, List.mem_cons]
    tauto

theorem mem_sortByDate {x : MRow} {l : List MRow} : x ∈ sortByDate l ↔ x ∈ l := by
  unfold sortByDate
  rw [mem_sortByDate_aux]
  simp

theorem pairwise_sortByDate_aux (l acc : List MRow)
    (h : List.Pairwise (fun a b : MRow => a.date ≤ b.date) acc) :
    List.Pairwise (fun a b : MRow => a.date ≤ b.date)
      (l.foldl (fun a r => insertByDate r a) acc) := by
  induction l generalizing acc with
  | nil => simpa using h
  | cons z zs ih => exact ih _ (pairwise_insertByDate h)

theorem pairwise_sortByDate (l : List MRow) :
    List.Pairwise (fun a b : MRow => a.date ≤ b.date) (sortByDate l) :=
  pairwise_sortByDate_aux l [] List.Pairwise.nil

/- ------------------- oracle placement lemmas ------------------- -/

theorem placeOne_find_other {dflt : String} {r : ORec} {d : Int}
    (hne : r.date ≠ d) (m : List MRow) :
    (placeOne dflt m r).find? (fun row => row.date == d) =
      m.find? (fun row => row.date == d) := by
  induction m with
  | nil =>
    simp only [placeOne, List.find?]
    have : ((r.date == d) : Bool) = false := by simpa using hne
    simp [this]
  | cons row rest ih =>
    unfold placeOne
    by_cases hb : row.date == r.date
    · rw [if_pos hb]
      have hrow : ((row.date == d) : Bool) = false := by
        have : row.date = r.date := by simpa using hb
        simp [this, hne]
      simp only [List.find?, hrow]
    · rw [if_neg hb]
      by_cases hd : row.date == d
      · simp only [List.find?, hd]
      · simp only [List.find?, hd]
        exact ih

theorem placeOne_find_same {dflt : String} {r : ORec} (m : List MRow) :
    ∃ row : MRow,
      (placeOne dflt m r).find? (fun row => row.date == r.date) = some row ∧
      row.oracleHours = r.hours ∧ row.oracleCode = r.code ∧
      (row.pers, row.drmisHours, row.drmisCode) = drmisView dflt m r.date ∧
      row.date = r.date := by
  induction m with
  | nil =>
    refine ⟨⟨r.date, dflt, 0, "0", r.hours, r.code⟩, ?_, rfl, rfl, ?_, rfl⟩
    · simp [placeOne, List.find?]
    · simp [drmisView, List.find?]
  | cons row rest ih =>
    unfold placeOne
    by_cases hb : row.date == r.date
    · rw [if_pos hb]
      have heq : row.date = r.date := by simpa using hb
      refine ⟨{ row with oracleHours := r.hours, oracleCode := r.code }, ?_, rfl, rfl, ?_, heq⟩
      · simp only [List.find?]
        simp [heq]
      · simp only [drmisView, List.find?, hb]
    · rw [if_neg hb]
      obtain ⟨row', hfind, h1, h2, h3, h4⟩ := ih
      refine ⟨row', ?_, h1, h2, ?_, h4⟩
      · simp only [List.find?, hb]
        exact hfind
      · rw [h3]
        simp only [drmisView, List.find?, hb]

theorem placeOne_view (dflt : String) (m : List MRow) (r : ORec) (d : Int) :
    drmisView dflt (placeOne dflt m r) d = drmisView dflt m d := by
  by_cases hd : r.date = d
  · subst hd
    obtain ⟨row, hfind, _, _, h3, _⟩ := @placeOne_find_same dflt r m
    unfold drmisView
    rw [hfind]
    exact h3
  · unfold drmisView
    rw [placeOne_find_other hd]

theorem placeOracle_no_date {dflt : String} {d : Int} (oracle : List ORec)
    (hnone : ∀ r ∈ oracle, r.date ≠ d) (m : List MRow) :
    (placeOracle dflt m oracle).find? (fun row => row.date == d) =
      m.find? (fun row => row.date == d) := by
  induction oracle generalizing m with
  | nil => rfl
  | cons r rest ih =>
    unfold placeOracle at *
    simp only [List.foldl_cons]
    rw [ih (fun x hx => hnone x (List.mem_cons_of_mem _ hx))]
    exact placeOne_find_other (hnone r (List.mem_cons_self _ _)) m

/-- C10: for every date carried by at least one Oracle record, the merged row
matched by Oracle placement ends up with exactly the last such record's hours
and leave code (same-date hours are never summed), while its DRMIS-side
fields (pers, DRMIS hours, DRMIS code) are exactly what they were before
placement (or the fresh-row defaults when no row for that date existed). -/
theorem reconcile_oracle_last_wins (dflt : String) (m : List MRow)
    (oracle : List ORec) (d : Int)
    (hne : oracle.filter (fun r => r.date == d) ≠ []) :
    ∃ (row : MRow) (L : ORec),
      (oracle.filter (fun r => r.date == d)).getLast? = some L ∧
      (placeOracle dflt m oracle).find? (fun row => row.date == d) = some row ∧
      row.oracleHours = L.hours ∧ row.oracleCode = L.code ∧
      row.pers = (drmisView dflt m d).1 ∧
      row.drmisHours = (drmisView dflt m d).2.1 ∧
      row.drmisCode = (drmisView dflt m d).2.2 := by
  induction oracle generalizing m with
  | nil => simp at hne
  | cons r rest ih =>
    by_cases hd : r.date = d
    · have hpr : ((r.date == d) : Bool) = true := by simpa using hd
      by_cases hrest : rest.filter (fun x => x.date == d) = []
      · have hfilter : (r :: rest).filter (fun x => x.date == d) = [r] := by
          simp [List.filter_cons, hpr, hrest]
        have hnone : ∀ x ∈ rest, x.date ≠ d := by
          intro x hx hxd
          have : x ∈ rest.filter (fun x => x.date == d) := by
            rw [List.mem_filter]
            exact ⟨hx, by simpa using hxd⟩
          rw [hrest] at this
          simp at this
        obtain ⟨row, hfind, h1, h2, h3, h4⟩ :=
          @placeOne_find_same dflt r m
        refine ⟨row, r, by rw [hfilter]; rfl, ?_, h1, h2, ?_, ?_, ?_⟩
        · show ((r :: rest).foldl (placeOne dflt) m).find? (fun row => row.date == d)
            = some row
          simp only [List.foldl_cons]
          show (placeOracle dflt (placeOne dflt m r) rest).find?
            (fun row => row.date == d) = some row
          rw [placeOracle_no_date rest hnone (placeOne dflt m r)]
          rw [← hd]
          exact hfind
        · rw [hd] at h3
          exact congrArg Prod.fst h3
        · rw [hd] at h3
          exact congrArg (fun p => p.2.1) h3
        · rw [hd] at h3
          exact congrArg (fun p => p.2.2) h3
      · obtain ⟨row, L, hlast, hfind, h1, h2, h3, h4, h5⟩ := ih (placeOne dflt m r) hrest
        have hview := placeOne_view dflt m r d
        refine ⟨row, L, ?_, ?_, h1, h2, ?_, ?_, ?_⟩
        · have hfilter : (r :: rest).filter (fun x => x.date == d) =
              r :: rest.filter (fun x => x.date == d) := by
            simp [List.filter_cons, hpr]
          rw [hfilter]
          obtain ⟨f0, fr, hfr⟩ : ∃ f0 fr, rest.filter (fun x => x.date == d) = f0 :: fr := by
            cases hh : rest.filter (fun x => x.date == d) with
            | nil => exact absurd hh hrest
            | cons f0 fr => exact ⟨f0, fr, rfl⟩
          rw [hfr]
          rw [hfr] at hlast
          simpa [List.getLast?_cons_cons] using hlast
        · show ((r :: rest).foldl (placeOne dflt) m).find? (fun row => row.date == d)
            = some row
          simp only [List.foldl_cons]
          exact hfind
        · rw [h3, hview]
        · rw [h4, hview]
        · rw [h5, hview]
    · have hpr : ((r.date == d) : Bool) = false := by simpa using hd
      have hfilter : (r :: rest).filter (fun x => x.date == d) =
          rest.filter (fun x => x.date == d) := by
        simp [List.filter_cons, hpr]
      rw [hfilter] at hne
      obtain ⟨row, L, hlast, hfind, h1, h2, h3, h4, h5⟩ := ih (placeOne dflt m r) hne
      have hview := placeOne_view dflt m r d
      refine ⟨row, L, by rw [hfilter]; exact hlast, ?_, h1, h2, ?_, ?_, ?_⟩
      · show ((r :: rest).foldl (placeOne dflt) m).find? (fun row => row.date == d)
          = some row
        simp only [List.foldl_cons]
        exact hfind
      · rw [h3, hview]
      · rw [h4, hview]
      · rw [h5, hview]

/-- C10 witness: two Oracle records on day 5 placed into an empty map leave
the day-5 row holding the second record's hours and code, with the fresh
default DRMIS side. -/
theorem reconcile_oracle_last_wins_witness :
    ∃ (row : MRow) (L : ORec),
      (([⟨5, 8, "1110"⟩, ⟨5, 4, "1300"⟩] : List ORec).filter
        (fun r => r.date == 5)).getLast? = some L ∧
      (placeOracle "7" [] [⟨5, 8, "1110"⟩, ⟨5, 4, "1300"⟩]).find?
        (fun row => row.date == 5) = some row ∧
      row.oracleHours = L.hours ∧ row.oracleCode = L.code ∧
      row.pers = (drmisView "7" [] 5).1 ∧
      row.drmisHours = (drmisView "7" [] 5).2.1 ∧
      row.drmisCode = (drmisView "7" [] 5).2.2 :=
  reconcile_oracle_last_wins "7" [] [⟨5, 8, "1110"⟩, ⟨5, 4, "1300"⟩] 5 (by decide)

/-- C3: a merged row is reported by the reconciler (with no whitelist active)
exactly when its DRMIS and Oracle codes differ as strings or its hours differ
numerically, and the output is sorted ascending by date; a row with hours
8/8 and codes "1110"/"1110" is not a mismatch, and changing any one of those
four values makes it one. -/
theorem reconcileData_spec :
    (∀ (drmis : List DRec) (oracle : List ORec) (r : MRow),
      r ∈ reconcileData none drmis oracle ↔
        r ∈ mergedRows none drmis oracle ∧ isMismatch r = true) ∧
    (∀ (drmis : List DRec) (oracle : List ORec),
      List.Pairwise (fun a b : MRow => a.date ≤ b.date)
        (reconcileData none drmis oracle)) ∧
    (∀ (d : Int) (p : String),
      isMismatch ⟨d, p, 8, "1110", 8, "1110"⟩ = false) ∧
    (∀ (d : Int) (p : String) (c : String), c ≠ "1110" →
      isMismatch ⟨d, p, 8, c, 8, "1110"⟩ = true) ∧
    (∀ (d : Int) (p : String) (c : String), c ≠ "1110" →
      isMismatch ⟨d, p, 8, "1110", 8, c⟩ = true) ∧
    (∀ (d : Int) (p : String) (q : ℚ), q ≠ 8 →
      isMismatch ⟨d, p, q, "1110", 8, "1110"⟩ = true) ∧
    (∀ (d : Int) (p : String) (q : ℚ), q ≠ 8 →
      isMismatch ⟨d, p, 8, "1110", q, "1110"⟩ = true) := by
  refine ⟨?_, ?_, ?_, ?_, ?_, ?_, ?_⟩
  · intro drmis oracle r
    unfold reconcileData
    rw [mem_sortByDate, List.mem_filter]
  · intro drmis oracle
    exact pairwise_sortByDate _
  · intro d p
    simp [isMismatch]
  · intro d p c hc
    simp [isMismatch, hc]
  · intro d p c hc
    simp [isMismatch, hc]
    exact fun h => hc h.symm
  · intro d p q hq
    simp [isMismatch, hq]
  · intro d p q hq
    simp [isMismatch, hq]
    exact fun h => hq h.symm

/-- C3 witness: a code change and an hours change on the 8/8 "1110"/"1110"
row each produce a mismatch. -/
theorem reconcileData_spec_witness :
    isMismatch ⟨0, "", 8, "9999", 8, "1110"⟩ = true ∧
    isMismatch ⟨0, "", 4, "1110", 8, "1110"⟩ = true :=
  ⟨reconcileData_spec.2.2.2.1 0 "" "9999" (by decide),
   reconcileData_spec.2.2.2.2.2.1 0 "" 4 (by norm_num)⟩

/- ------------------- CATs edit generation (generateCatsEdits) ------------ -/

/-- C4: for every mismatch the Edit Generator emits a data-row followed by a
total-row; the data-row's target code and hours follow the spec's priority
rule (Oracle-empty case targets the DRMIS code with 0 hours, otherwise the
Oracle code, falling back to the DRMIS code, with the Oracle hours), and its
discrepancy reason is the comma-joined subset of Code/Hours Mismatch labels
for the differing fields; the DRMIS-only example (code "1110", hours 4.25,
empty Oracle side) yields target code 1110, hours 0, and reason
"Code Mismatch, Hours Mismatch". -/
theorem generateCatsEdits_spec :
    (∀ (rows : List MRow) (r : MRow),
      generateCatsEdits (r :: rows) =
        catsDataRow r :: catsTotalRow r :: generateCatsEdits rows) ∧
    (∀ r : MRow,
      (catsDataRow r).aa_code = specTargetCode r.oracleCode r.oracleHours r.drmisCode ∧
      (catsDataRow r).hours = .num (specTargetHours r.oracleCode r.oracleHours) ∧
      (catsDataRow r).discrepancy_reason = joinSep ", "
        ((if r.oracleCode ≠ r.drmisCode then ["Code Mismatch"] else []) ++
         (if r.oracleHours ≠ r.drmisHours then ["Hours Mismatch"] else []))) ∧
    ((catsDataRow ⟨jsDate 2025 3 28, "12345", 17 / 4, "1110", 0, ""⟩).aa_code =
        .num 1110 ∧
     (catsDataRow ⟨jsDate 2025 3 28, "12345", 17 / 4, "1110", 0, ""⟩).hours =
        .num 0 ∧
     (catsDataRow ⟨jsDate 2025 3 28, "12345", 17 / 4, "1110", 0, ""⟩).discrepancy_reason =
        "Code Mismatch, Hours Mismatch") := by
  refine ⟨fun rows r => rfl, fun r => ⟨rfl, rfl, rfl⟩, ?_, ?_, ?_⟩
  · rfl
  · rfl
  · show joinSep ", "
      ((if ("" : String) ≠ "1110" then ["Code Mismatch"] else []) ++
       (if (0 : ℚ) ≠ 17 / 4 then ["Hours Mismatch"] else [])) =
      "Code Mismatch, Hours Mismatch"
    have h1 : (0 : ℚ) ≠ 17 / 4 := by norm_num
    rw [if_pos (by decide : ("" : String) ≠ "1110"), if_pos h1]
    rfl

/- ------------------- record extraction (extractDrmisData / Oracle) ------- -/

/- ------------------- extractor error lemmas ------------------- -/

theorem findLower_isSome (lm : List (String × String)) (pred : String → Bool) :
    (findLower lm pred).isSome ↔ ∃ p ∈ lm, pred p.1 = true := by
  simp [findLower, List.find?_isSome]

theorem lookupLower_isSome (lm : List (String × String)) (k : String) :
    (lookupLower lm k).isSome ↔ ∃ p ∈ lm, p.1 = k := by
  simp [lookupLower, List.find?_isSome]

theorem drmisMissing_eq_nil (lm : List (String × String)) :
    drmisMissing lm = [] ↔
      (drmisPersKey lm).isSome ∧ (drmisDateKey lm).isSome ∧
      (drmisHoursKey lm).isSome ∧ (drmisAtypeKey lm).isSome := by
  unfold drmisMissing
  by_cases h1 : (drmisPersKey lm).isSome <;>
    by_cases h2 : (drmisDateKey lm).isSome <;>
      by_cases h3 : (drmisHoursKey lm).isSome <;>
        by_cases h4 : (drmisAtypeKey lm).isSome <;>
          simp [h1, h2, h3, h4]

theorem oracleMissing_eq_nil (lm : List (String × String)) :
    oracleMissing lm = [] ↔
      (oracleFromDateKey lm).isSome ∧ (oracleHoursKey lm).isSome ∧
      (oracleLeaveCodeKey lm).isSome := by
  unfold oracleMissing
  by_cases h1 : (oracleFromDateKey lm).isSome <;>
    by_cases h2 : (oracleHoursKey lm).isSome <;>
      by_cases h3 : (oracleLeaveCodeKey lm).isSome <;>
        simp [h1, h2, h3]

theorem drmisMissing_char (lm : List (String × String)) :
    drmisMissing lm = [] ↔
      ((∃ p ∈ lm, (hasSub p.1 "pers" && hasSub p.1 "no") = true) ∧
       (∃ p ∈ lm, p.1 = "date") ∧ (∃ p ∈ lm, p.1 = "hours") ∧
       (∃ p ∈ lm, (hasSub p.1 "a/a" && hasSub p.1 "type" && !(hasSub p.1 "text")) = true)) := by
  rw [drmisMissing_eq_nil]
  exact and_congr (findLower_isSome _ _)
    (and_congr (lookupLower_isSome _ _)
      (and_congr (lookupLower_isSome _ _) (findLower_isSome _ _)))

theorem oracleFromDateKey_isSome (lm : List (String × String)) :
    (oracleFromDateKey lm).isSome ↔
      (∃ p ∈ lm, (hasSub p.1 "from" && hasSub p.1 "date") = true) ∨
      (∃ p ∈ lm, p.1 = "date") := by
  unfold oracleFromDateKey
  cases h : findLower lm (fun k => hasSub k "from" && hasSub k "date") with
  | some k =>
    refine ⟨fun _ => Or.inl ?_, fun _ => rfl⟩
    exact (findLower_isSome lm _).mp (by rw [h]; rfl)
  | none =>
    have hno : ¬ ∃ p ∈ lm, (hasSub p.1 "from" && hasSub p.1 "date") = true := by
      intro hex
      have hs := (findLower_isSome lm
        (fun k => hasSub k "from" && hasSub k "date")).mpr hex
      rw [h] at hs
      simp at hs
    constructor
    · intro hs
      exact Or.inr ((lookupLower_isSome lm "date").mp hs)
    · rintro (hex | hd)
      · exact absurd hex hno
      · exact (lookupLower_isSome lm "date").mpr hd

theorem oracleHoursKey_isSome (lm : List (String × String)) :
    (oracleHoursKey lm).isSome ↔
      (∃ p ∈ lm, (hasSub p.1 "hours" && hasSub p.1 "recorded") = true) ∨
      (∃ p ∈ lm, p.1 = "hours") := by
  unfold oracleHoursKey
  cases h : findLower lm (fun k => hasSub k "hours" && hasSub k "recorded") with
  | some k =>
    refine ⟨fun _ => Or.inl ?_, fun _ => rfl⟩
    exact (findLower_isSome lm _).mp (by rw [h]; rfl)
  | none =>
    have hno : ¬ ∃ p ∈ lm, (hasSub p.1 "hours" && hasSub p.1 "recorded") = true := by
      intro hex
      have hs := (findLower_isSome lm
        (fun k => hasSub k "hours" && hasSub k "recorded")).mpr hex
      rw [h] at hs
      simp at hs
    constructor
    · intro hs
      exact Or.inr ((lookupLower_isSome lm "hours").mp hs)
    · rintro (hex | hd)
      · exact absurd hex hno
      · exact (lookupLower_isSome lm "hours").mpr hd

theorem oracleMissing_char (lm : List (String × String)) :
    oracleMissing lm = [] ↔
      (((∃ p ∈ lm, (hasSub p.1 "from" && hasSub p.1 "date") = true) ∨
        (∃ p ∈ lm, p.1 = "date")) ∧
       ((∃ p ∈ lm, (hasSub p.1 "hours" && hasSub p.1 "recorded") = true) ∨
        (∃ p ∈ lm, p.1 = "hours")) ∧
       (∃ p ∈ lm, (hasSub p.1 "leave" && hasSub p.1 "code") = true)) := by
  rw [oracleMissing_eq_nil]
  exact and_congr (oracleFromDateKey_isSome _)
    (and_congr (oracleHoursKey_isSome _) (findLower_isSome _ _))

/-- C7: each extractor raises its MissingColumns error exactly when one of
its required columns cannot be resolved from the (lowercased, trimmed)
record keys — DRMIS needs a "pers"+"no" header, exact "date", exact "hours"
and an "a/a"+"type" (non-"text") header; Oracle needs "from"+"date" (or bare
"date"), "hours"+"recorded" (or bare "hours") and "leave"+"code" — the error
message names every missing required field and lists all available headers,
and when everything resolves extraction returns records without raising. -/
theorem extractors_missing_columns (fb : String → Option Int)
    (wl : Option (List String)) (rows : List RowObj) (hne : rows ≠ []) :
    ((∃ msg, extractDrmisData fb wl rows = .error msg) ↔
      ¬((∃ p ∈ buildLowerMap (objKeys rows.headI),
          (hasSub p.1 "pers" && hasSub p.1 "no") = true) ∧
        (∃ p ∈ buildLowerMap (objKeys rows.headI), p.1 = "date") ∧
        (∃ p ∈ buildLowerMap (objKeys rows.headI), p.1 = "hours") ∧
        (∃ p ∈ buildLowerMap (objKeys rows.headI),
          (hasSub p.1 "a/a" && hasSub p.1 "type" && !(hasSub p.1 "text")) = true))) ∧
    (∀ msg, extractDrmisData fb wl rows = .error msg →
      msg = missingMsg "DRMIS" (drmisMissing (buildLowerMap (objKeys rows.headI)))
        (objKeys rows.headI)) ∧
    (drmisMissing (buildLowerMap (objKeys rows.headI)) = [] →
      ∃ recs, extractDrmisData fb wl rows = .ok recs) ∧
    ((∃ msg, extractOracleData fb wl rows = .error msg) ↔
      ¬(((∃ p ∈ buildLowerMap (objKeys rows.headI),
            (hasSub p.1 "from" && hasSub p.1 "date") = true) ∨
         (∃ p ∈ buildLowerMap (objKeys rows.headI), p.1 = "date")) ∧
        ((∃ p ∈ buildLowerMap (objKeys rows.headI),
            (hasSub p.1 "hours" && hasSub p.1 "recorded") = true) ∨
         (∃ p ∈ buildLowerMap (objKeys rows.headI), p.1 = "hours")) ∧
        (∃ p ∈ buildLowerMap (objKeys rows.headI),
          (hasSub p.1 "leave" && hasSub p.1 "code") = true))) ∧
    (∀ msg, extractOracleData fb wl rows = .error msg →
      msg = missingMsg "ORACLE" (oracleMissing (buildLowerMap (objKeys rows.headI)))
        (objKeys rows.headI)) ∧
    (oracleMissing (buildLowerMap (objKeys rows.headI)) = [] →
      ∃ recs, extractOracleData fb wl rows = .ok recs) := by
  obtain ⟨first, rest, rfl⟩ : ∃ f r, rows = f :: r := by
    cases rows with
    | nil => exact absurd rfl hne
    | cons f r => exact ⟨f, r, rfl⟩
  have hhead : (first :: rest).headI = first := rfl
  rw [hhead]
  have herrD : (∃ msg, extractDrmisData fb wl (first :: rest) = .error msg) ↔
      drmisMissing (buildLowerMap (objKeys first)) ≠ [] := by
    constructor
    · rintro ⟨msg, hmsg⟩
      by_cases h : drmisMissing (buildLowerMap (objKeys first)) ≠ []
      · exact h
      · rw [not_ne_iff] at h
        simp [extractDrmisData, h] at hmsg
    · intro h
      exact ⟨missingMsg "DRMIS" (drmisMissing (buildLowerMap (objKeys first)))
        (objKeys first), by simp [extractDrmisData, h]⟩
  have herrO : (∃ msg, extractOracleData fb wl (first :: rest) = .error msg) ↔
      oracleMissing (buildLowerMap (objKeys first)) ≠ [] := by
    constructor
    · rintro ⟨msg, hmsg⟩
      by_cases h : oracleMissing (buildLowerMap (objKeys first)) ≠ []
      · exact h
      · rw [not_ne_iff] at h
        simp [extractOracleData, h] at hmsg
    · intro h
      exact ⟨missingMsg "ORACLE" (oracleMissing (buildLowerMap (objKeys first)))
        (objKeys first), by simp [extractOracleData, h]⟩
  refine ⟨?_, ?_, ?_, ?_, ?_, ?_⟩
  · rw [herrD, ← drmisMissing_char]
  · intro msg hmsg
    by_cases h : drmisMissing (buildLowerMap (objKeys first)) ≠ []
    · simp [extractDrmisData, h] at hmsg
      exact hmsg.symm
    · rw [not_ne_iff] at h
      simp [extractDrmisData, h] at hmsg
  · intro h
    cases hres : extractDrmisData fb wl (first :: rest) with
    | ok recs => exact ⟨recs, rfl⟩
    | error msg => exact absurd h (herrD.mp ⟨msg, hres⟩)
  · rw [herrO, ← oracleMissing_char]
  · intro msg hmsg
    by_cases h : oracleMissing (buildLowerMap (objKeys first)) ≠ []
    · simp [extractOracleData, h] at hmsg
      exact hmsg.symm
    · rw [not_ne_iff] at h
      simp [extractOracleData, h] at hmsg
  · intro h
    cases hres : extractOracleData fb wl (first :: rest) with
    | ok recs => exact ⟨recs, rfl⟩
    | error msg => exact absurd h (herrO.mp ⟨msg, hres⟩)

/-- C7 witness: a DRMIS sheet carrying only "Pers No" and "Hours" headers
fails extraction with a message naming the missing Date and A/A Type columns
and listing the available headers. -/
theorem extractors_missing_columns_witness :
    extractDrmisData (fun _ => none) none
        [[("Pers No", CellValue.str "1"), ("Hours", CellValue.str "8")]] =
      .error "DRMIS file is missing required columns: Date, A/A Type. Available columns: Pers No, Hours" ∧
    "DRMIS file is missing required columns: Date, A/A Type. Available columns: Pers No, Hours" =
      missingMsg "DRMIS"
        (drmisMissing (buildLowerMap (objKeys
          ([[("Pers No", CellValue.str "1"), ("Hours", CellValue.str "8")]] :
            List RowObj).headI)))
        (objKeys ([[("Pers No", CellValue.str "1"), ("Hours", CellValue.str "8")]] :
          List RowObj).headI) := by
  refine ⟨by rfl, ?_⟩
  exact (extractors_missing_columns (fun _ => none) none
    [[("Pers No", CellValue.str "1"), ("Hours", CellValue.str "8")]]
    (by decide)).2.1 _ (by rfl)

theorem argmaxFold_succ (f : Nat → Int) (n : Nat) :
    argmaxFold f (n + 1) =
      (if f n > (argmaxFold f n).2 then (n, f n) else argmaxFold f n) := by
  unfold argmaxFold
  rw [List.range_succ, List.foldl_append]
  rfl

theorem argmaxFold_spec (f : Nat → Int) (hpos : ∀ i, -1 < f i) :
    ∀ n : Nat, 0 < n →
      (argmaxFold f n).1 < n ∧ (argmaxFold f n).2 = f (argmaxFold f n).1 ∧
      (∀ i, i < n → f i ≤ f (argmaxFold f n).1) ∧
      (∀ j, j < (argmaxFold f n).1 → f j < f (argmaxFold f n).1) := by
  intro n
  induction n with
  | zero => omega
  | succ m ih =>
    intro _
    by_cases hm : 0 < m
    · obtain ⟨ih1, ih2, ih3, ih4⟩ := ih hm
      rw [argmaxFold_succ]
      by_cases hcmp : f m > (argmaxFold f m).2
      · rw [if_pos hcmp]
        rw [ih2] at hcmp
        refine ⟨by omega, rfl, ?_, ?_⟩
        · intro i hi
          rcases Nat.lt_succ_iff_lt_or_eq.mp hi with hi' | rfl
          · exact le_of_lt (lt_of_le_of_lt (ih3 i hi') hcmp)
          · exact le_refl _
        · intro j hj
          show f j < f m
          exact lt_of_le_of_lt (ih3 j (by omega)) hcmp
      · rw [if_neg hcmp]
        rw [ih2] at hcmp
        refine ⟨by omega, ih2, ?_, ih4⟩
        intro i hi
        rcases Nat.lt_succ_iff_lt_or_eq.mp hi with hi' | rfl
        · exact ih3 i hi'
        · exact not_lt.mp hcmp
    · have hm0 : m = 0 := by omega
      subst hm0
      rw [argmaxFold_succ]
      have h0 : argmaxFold f 0 = (0, -1) := rfl
      rw [h0]
      rw [if_pos (hpos 0)]
      refine ⟨by omega, rfl, ?_, ?_⟩
      · intro i hi
        have hi0 : i = 0 := by omega
        subst hi0
        exact le_refl _
      · intro j hj
        simp at hj

/-- C8: header detection scores each of the first min(30, rowCount) rows as
its non-empty-cell count plus 50 when any cell contains a header keyword,
and selects the highest-scoring row with the earliest index winning ties;
consequently, when exactly one scanned row matches a keyword and every other
scanned row has fewer than 50 more non-empty cells than it, the detected
header row is that keyword row. -/
theorem bestHeaderIdx_spec (rows : List (List CellValue)) (hne : 0 < rows.length) :
    (bestHeaderIdx rows < min 30 rows.length ∧
     (∀ i, i < min 30 rows.length →
       rowScore (rows.getD i []) ≤ rowScore (rows.getD (bestHeaderIdx rows) [])) ∧
     (∀ j, j < bestHeaderIdx rows →
       rowScore (rows.getD j []) < rowScore (rows.getD (bestHeaderIdx rows) []))) ∧
    (∀ h, h < min 30 rows.length →
      rowHasKeyword (rows.getD h []) = true →
      (∀ i, i < min 30 rows.length → i ≠ h → rowHasKeyword (rows.getD i []) = false) →
      (∀ i, i < min 30 rows.length → i ≠ h →
        rowNonEmptyCount (rows.getD i []) < rowNonEmptyCount (rows.getD h []) + 50) →
      bestHeaderIdx rows = h) := by
  have hn : 0 < min 30 rows.length := by omega
  have hpos : ∀ i, (-1 : Int) < (rowScore (rows.getD i []) : Int) := by
    intro i
    have : (0 : Int) ≤ (rowScore (rows.getD i []) : Int) := by positivity
    omega
  obtain ⟨h1, h2, h3, h4⟩ :=
    argmaxFold_spec (fun i => (rowScore (rows.getD i []) : Int)) hpos
      (min 30 rows.length) hn
  have hb : bestHeaderIdx rows =
      (argmaxFold (fun i => (rowScore (rows.getD i []) : Int)) (min 30 rows.length)).1 :=
    rfl
  constructor
  · refine ⟨by rw [hb]; exact h1, ?_, ?_⟩
    · intro i hi
      have := h3 i hi
      rw [← hb] at this
      exact_mod_cast this
    · intro j hj
      rw [hb] at hj
      have := h4 j hj
      rw [← hb] at this
      exact_mod_cast this
  · intro h hlt hkey huniq hcnt
    by_contra hne2
    have hbn : bestHeaderIdx rows < min 30 rows.length := by rw [hb]; exact h1
    have hble : rowScore (rows.getD h []) ≤ rowScore (rows.getD (bestHeaderIdx rows) []) := by
      have := h3 h hlt
      rw [← hb] at this
      exact_mod_cast this
    have hbKey : rowHasKeyword (rows.getD (bestHeaderIdx rows) []) = false :=
      huniq _ hbn hne2
    have hscoreB : rowScore (rows.getD (bestHeaderIdx rows) []) =
        rowNonEmptyCount (rows.getD (bestHeaderIdx rows) []) := by
      unfold rowScore
      rw [hbKey]
      simp
    have hscoreH : rowScore (rows.getD h []) =
        rowNonEmptyCount (rows.getD h []) + 50 := by
      unfold rowScore
      rw [hkey]
      simp
    have hlt2 := hcnt _ hbn hne2
    omega

/-- C8 witness: in a grid with a title row, a clear header row and data rows,
the detected header row is the (unique) keyword row, index 1. -/
theorem bestHeaderIdx_spec_witness :
    bestHeaderIdx
      [[CellValue.str "Report"],
       [CellValue.str "Pers No", CellValue.str "Date", CellValue.str "Hours",
        CellValue.str "A/AType"],
       [CellValue.str "1", CellValue.str "2.1.2025", CellValue.str "8",
        CellValue.str "1110"],
       [CellValue.str "1", CellValue.str "3.1.2025", CellValue.str "8",
        CellValue.str "1110"]] = 1 := by
  refine (bestHeaderIdx_spec _ (by decide)).2 1 (by decide) (by decide) ?_ ?_
  · decide
  · decide
